import Mathlib

/-!
Verification of `src/tools/obrms.cpp` (the Open Babel `obrms` tool).

The file shallowly embeds the heavy-atom RMSD computation of `obrms.cpp`:

* the data model (`Atom`, `Bond`, `OBMol`) for molecule graphs;
* the normalization pass `processMol` (lines 192-216 of the source);
* the isomorphism enumeration driving `Matcher::computeRMSD`
  (`OBIsomorphismMapper::MapGeneric` is Open Babel library code that is not
  part of `src/`, so it is modelled from the specification: it enumerates
  every adjacency-preserving, element-compatible bijection between the heavy
  atoms of the two graphs and feeds each one to a visitor that may request
  early termination);
* the per-mapping evaluator `MapRMSDFunctor::operator()` (lines 92-156),
  with the library routines `qtrfit` and `calc_rms` modelled from the
  specification;
* the best-RMSD accumulator of `Matcher::computeRMSD` (lines 182-188), whose
  sentinel `HUGE_VAL` is modelled as the top element of `WithTop ℝ`.

Doubles are modelled as real numbers; machine indices as `ℕ`.
-/

noncomputable section

/-- A 3D coordinate: the three double components of an atom position
(`vector3` / `GetVector()[c]` in the source). -/
abbrev Pt := ℝ × ℝ × ℝ

/-- Componentwise difference of two 3D points. -/
def vsub (p q : Pt) : Pt := (p.1 - q.1, p.2.1 - q.2.1, p.2.2 - q.2.2)

/-- Squared Euclidean norm of a 3D point. -/
def normSq (p : Pt) : ℝ := p.1 ^ 2 + p.2.1 ^ 2 + p.2.2 ^ 2

/-- Euclidean dot product of two 3D points. -/
def dotp (p q : Pt) : ℝ := p.1 * q.1 + p.2.1 * q.2.1 + p.2.2 * q.2.2

/-- Componentwise sum of a list of 3D points (the `rave[c] += ...` /
`tave[c] += ...` accumulation loop of lines 122-129). -/
def vsum (l : List Pt) : Pt :=
  ((l.map (fun p => p.1)).sum, (l.map (fun p => p.2.1)).sum,
    (l.map (fun p => p.2.2)).sum)

/-- The centroid computed at lines 131-135 of the source: each component sum
divided by `N`.  The source performs `rave[c] /= N` unconditionally, with no
guard on `N`; with `N = 0` this is a division by zero. -/
def centroid (l : List Pt) : Pt :=
  ((vsum l).1 / l.length, (vsum l).2.1 / l.length, (vsum l).2.2 / l.length)

/-- The centering loop of lines 137-144: subtract the centroid from every
point of the array. -/
def centerCoords (l : List Pt) : List Pt := l.map (fun p => vsub p (centroid l))

/-- Sum of squared distances between corresponding points of two parallel
coordinate arrays. -/
def ssd (a b : List Pt) : ℝ := (List.zipWith (fun p q => normSq (vsub p q)) a b).sum

/-- Modelled from the spec: `calc_rms` is Open Babel library code (not under
`src/`); per the specification it computes
"RMSD = sqrt( mean over points of squared Euclidean distance between
corresponding reference and test points )", with the RMSD of an empty point
set being 0 by convention (in Lean, `x / 0 = 0` and `Real.sqrt 0 = 0`, so the
unguarded formula already yields the conventional value at `N = 0`). -/
def calc_rms (a b : List Pt) (N : ℕ) : ℝ := Real.sqrt (ssd a b / N)

/-- A 3x3 matrix of doubles (`double rmatrix[3][3]` in the source). -/
structure Mat3 where
  m11 : ℝ
  m12 : ℝ
  m13 : ℝ
  m21 : ℝ
  m22 : ℝ
  m23 : ℝ
  m31 : ℝ
  m32 : ℝ
  m33 : ℝ

/-- Matrix-vector application: `rotate_coords` applies the rotation matrix to
each coordinate triple. -/
def Mat3.apply (M : Mat3) (p : Pt) : Pt :=
  (M.m11 * p.1 + M.m12 * p.2.1 + M.m13 * p.2.2,
   M.m21 * p.1 + M.m22 * p.2.1 + M.m23 * p.2.2,
   M.m31 * p.1 + M.m32 * p.2.1 + M.m33 * p.2.2)

/-- The identity matrix. -/
def Mat3.id3 : Mat3 := ⟨1, 0, 0, 0, 1, 0, 0, 0, 1⟩

/-- Matrix transpose. -/
def Mat3.transpose (M : Mat3) : Mat3 :=
  ⟨M.m11, M.m21, M.m31, M.m12, M.m22, M.m32, M.m13, M.m23, M.m33⟩

/-- Matrix product. -/
def Mat3.mul (A B : Mat3) : Mat3 :=
  ⟨A.m11 * B.m11 + A.m12 * B.m21 + A.m13 * B.m31,
   A.m11 * B.m12 + A.m12 * B.m22 + A.m13 * B.m32,
   A.m11 * B.m13 + A.m12 * B.m23 + A.m13 * B.m33,
   A.m21 * B.m11 + A.m22 * B.m21 + A.m23 * B.m31,
   A.m21 * B.m12 + A.m22 * B.m22 + A.m23 * B.m32,
   A.m21 * B.m13 + A.m22 * B.m23 + A.m23 * B.m33,
   A.m31 * B.m11 + A.m32 * B.m21 + A.m33 * B.m31,
   A.m31 * B.m12 + A.m32 * B.m22 + A.m33 * B.m32,
   A.m31 * B.m13 + A.m32 * B.m23 + A.m33 * B.m33⟩

/-- Determinant of a 3x3 matrix. -/
def Mat3.det (M : Mat3) : ℝ :=
  M.m11 * (M.m22 * M.m33 - M.m23 * M.m32) -
    M.m12 * (M.m21 * M.m33 - M.m23 * M.m31) +
    M.m13 * (M.m21 * M.m32 - M.m22 * M.m31)

/-- A proper rotation: orthogonal with determinant +1 (the specification's
"proper rotation matrix (determinant +1) ... no reflection, no scaling"). -/
def Mat3.IsProperRotation (M : Mat3) : Prop :=
  Mat3.mul M.transpose M = Mat3.id3 ∧ M.det = 1

/-- The routine `rotate_coords`: apply the rotation matrix to every point of the array. -/
def rotate_coords (M : Mat3) (l : List Pt) : List Pt := l.map (Mat3.apply M)

/-- Modelled from the spec: `qtrfit` is Open Babel library code (not under
`src/`); per the specification it computes "the proper rotation matrix
(determinant +1) that minimizes the sum of squared distances between the two
centered point sets".  We model the minimize branch by its resulting value:
the infimum, over all proper rotations, of the sum of squared distances
between the reference array and the rotated test array. -/
def minimizedSSD (rc tc : List Pt) : ℝ :=
  sInf (Set.image (fun M => ssd rc (rotate_coords M tc)) {M : Mat3 | Mat3.IsProperRotation M})

/-- An atom record: element (atomic number; hydrogen is 1), 3D coordinate,
and the aromatic / in-ring flags touched by `processMol`. -/
structure Atom where
  atomicNum : ℕ
  coord : Pt
  aromatic : Bool
  inRing : Bool
deriving Inhabited

/-- A bond record: the (0-based) indices of its two endpoint atoms, the bond
order, and the aromatic / in-ring flags touched by `processMol`. -/
structure Bond where
  src : ℕ
  dst : ℕ
  order : ℕ
  aromatic : Bool
  inRing : Bool
deriving Inhabited

/-- A molecule graph (`OBMol`): an ordered list of atoms, a list of bonds,
and the three perception flags set at lines 213-215 of the source. -/
structure OBMol where
  atoms : List Atom
  bonds : List Bond
  hybridizationPerceived : Bool
  ringPerceived : Bool
  aromaticPerceived : Bool

/-- A heavy atom is any atom that is not hydrogen. -/
def isHeavy (a : Atom) : Bool := a.atomicNum != 1

/-- The index an atom receives after the hydrogens are deleted: remaining
atoms keep their relative order, so old index `i` becomes the number of heavy
atoms preceding position `i`. -/
def reindexAtom (m : OBMol) (i : ℕ) : ℕ := ((m.atoms.take i).filter isHeavy).length

/-- Whether a bond survives hydrogen deletion: both endpoints must refer to
atoms of the graph and both endpoint atoms must be heavy. -/
def keepBond (m : OBMol) (b : Bond) : Bool :=
  decide (b.src < m.atoms.length) && decide (b.dst < m.atoms.length) &&
    isHeavy (m.atoms.getD b.src default) && isHeavy (m.atoms.getD b.dst default)

/-- Modelled from the spec: `OBMol::DeleteHydrogens` is Open Babel library
code (not under `src/`); per the specification it "removes all atoms tagged
as hydrogen, removing their incident bonds".  Remaining atoms keep their
relative order, so the surviving bonds are re-indexed by the number of heavy
atoms preceding each endpoint; a bond whose endpoint does not refer to an
atom of the graph is likewise discarded. -/
def deleteHydrogens (m : OBMol) : OBMol :=
  { m with
    atoms := m.atoms.filter isHeavy
    bonds := (m.bonds.filter (keepBond m)).map
      (fun b => { b with src := reindexAtom m b.src, dst := reindexAtom m b.dst }) }

/-- The per-atom normalization of lines 199-204: `UnsetAromatic`,
`SetInRing`. -/
def normalizeAtom (a : Atom) : Atom := { a with aromatic := false, inRing := true }

/-- The per-bond normalization of lines 205-211: `UnsetAromatic`,
`SetBondOrder(1)`, `SetInRing`. -/
def normalizeBond (b : Bond) : Bond :=
  { b with aromatic := false, order := 1, inRing := true }

/-- The normalization pass `processMol` (lines 192-216): delete hydrogens, clear aromatic flags,
mark every remaining atom and bond as in-ring, force every bond order to 1,
then record the perception flags. -/
def processMol (m : OBMol) : OBMol :=
  let m' := deleteHydrogens m
  { atoms := m'.atoms.map normalizeAtom
    bonds := m'.bonds.map normalizeBond
    hybridizationPerceived := true
    ringPerceived := true
    aromaticPerceived := true }

/-- A mapping produced by the isomorphism mapper: a list of
(reference-atom-index, test-atom-index) pairs, 0-indexed
(`OBIsomorphismMapper::Mapping`). -/
abbrev Mapping := List (ℕ × ℕ)

/-- All ways of arranging the elements of `xs` (with `fuel` bounding the
recursion depth at `xs.length`): the candidate images of the reference atom
indices under a bijection onto the test atom indices. -/
def permsAux : ℕ → List ℕ → List (List ℕ)
  | 0, _ => [[]]
  | n + 1, xs => xs.flatMap (fun j => (permsAux n (xs.erase j)).map (fun σ => j :: σ))

/-- Whether test-graph atoms `i` and `j` are bonded (in either orientation of
the stored bond pair). -/
def adjacent (m : OBMol) (i j : ℕ) : Bool :=
  m.bonds.any (fun b => (b.src == i && b.dst == j) || (b.src == j && b.dst == i))

/-- Element-label compatibility of a candidate bijection `σ` (reference atom
`i` is sent to test atom `σ i`). -/
def elementsCompatible (ref test : OBMol) (σ : List ℕ) : Bool :=
  (List.range σ.length).all (fun i =>
    (ref.atoms.getD i default).atomicNum == (test.atoms.getD (σ.getD i 0) default).atomicNum)

/-- Adjacency preservation of a candidate bijection: reference atoms are
bonded exactly when their images are. -/
def adjacencyPreserved (ref test : OBMol) (σ : List ℕ) : Bool :=
  (List.range σ.length).all (fun i => (List.range σ.length).all (fun j =>
    adjacent ref i j == adjacent test (σ.getD i 0) (σ.getD j 0)))

/-- A candidate arrangement `σ` of the test atom indices is an isomorphism
when it is total over the reference atoms, element-compatible and
adjacency-preserving. -/
def isIsomorphism (ref test : OBMol) (σ : List ℕ) : Bool :=
  (σ.length == ref.atoms.length) && elementsCompatible ref test σ &&
    adjacencyPreserved ref test σ

/-- Modelled from the spec: the query compiled by `CompileMoleculeQuery` and
searched by `OBIsomorphismMapper` (Open Babel library code, not under `src/`)
"produces every distinct adjacency-preserving, element-compatible bijection
between reference and test heavy atoms"; if the graphs are not isomorphic no
mapping is produced.  Each bijection is returned as the list of pairs
`(i, σ i)` over the reference atom indices `i`. -/
def allMappings (ref test : OBMol) : List Mapping :=
  ((permsAux test.atoms.length (List.range test.atoms.length)).filter
      (isIsomorphism ref test)).map
    (fun σ => (List.range ref.atoms.length).zip σ)

/-- Modelled from the spec: `OBIsomorphismMapper::MapGeneric` "calls `visit`
once per Mapping found; if `visit` returns a truthy stop signal, enumeration
terminates early; otherwise it continues until the search space is
exhausted".  The visitor threads a state (the functor's member data). -/
def mapGeneric {S : Type} (visit : S → Mapping → S × Bool) : S → List Mapping → S
  | s, [] => s
  | s, m :: rest =>
    let r := visit s m
    if r.2 then r.1 else mapGeneric visit r.1 rest

/-- The reference coordinate array built at lines 98-110:
`refcoord[3*i+c] = ref.GetAtom(map[i].first + 1)->GetVector()[c]` (the mapper
is 0-indexed, `GetAtom` is 1-indexed; our atom lists are 0-indexed, so the
offset disappears). -/
def refCoords (ref : OBMol) (mp : Mapping) : List Pt :=
  mp.map (fun pr => (ref.atoms.getD pr.1 default).coord)

/-- The test coordinate array built at lines 98-110. -/
def testCoords (test : OBMol) (mp : Mapping) : List Pt :=
  mp.map (fun pr => (test.atoms.getD pr.2 default).coord)

/-- The RMSD computed by one call of `MapRMSDFunctor::operator()` (lines
92-156) for a given mapping: build the two local coordinate arrays; if
`minimize` is set, center both arrays and apply the optimal proper rotation
(`qtrfit` / `rotate_coords`, modelled by `minimizedSSD`); finally
`calc_rms`, i.e. the square root of the mean squared distance. -/
def mapRMSD (ref test : OBMol) (minimize : Bool) (mp : Mapping) : ℝ :=
  let rc := refCoords ref mp
  let tc := testCoords test mp
  if minimize then
    Real.sqrt (minimizedSSD (centerCoords rc) (centerCoords tc) / mp.length)
  else
    calc_rms rc tc mp.length

/-- The functor `MapRMSDFunctor::operator()` as a visitor for `mapGeneric`: the state is
the member `bestRMSD` (`WithTop ℝ`, with `⊤` playing `HUGE_VAL`); the update
is `if (rmsd < bestRMSD) bestRMSD = rmsd` (lines 152-153) and the functor
always returns `false` (line 155: "check all possible mappings"). -/
def functorStep (ref test : OBMol) (minimize : Bool) (best : WithTop ℝ) (m : Mapping) :
    WithTop ℝ × Bool :=
  let rmsd : WithTop ℝ := ((mapRMSD ref test minimize m : ℝ) : WithTop ℝ)
  (if rmsd < best then rmsd else best, false)

/-- The entry point `Matcher::computeRMSD` (lines 182-188): construct the functor with
`bestRMSD = HUGE_VAL`, run `MapGeneric` over the test molecule, and return
the accumulated best RMSD. -/
def computeRMSD (ref test : OBMol) (minimize : Bool) : WithTop ℝ :=
  mapGeneric (functorStep ref test minimize) ⊤ (allMappings ref test)

/-- The evaluator `MapRMSDFunctor::operator()` instrumented with the division-by-zero
events of the code under `src/`: the second component records whether a
division with zero denominator was executed.  In the minimize branch the
centering step (lines 131-135) performs `rave[c] /= N` and `tave[c] /= N`
unconditionally, so a zero denominator occurs exactly when the coordinate
arrays are empty; the final `calc_rms` is library code modelled from the
spec, which guards `N ≥ 1` ("the evaluator must not divide by zero (guard
N ≥ 1 before the mean)"), so it contributes no event. -/
def mapRMSDchecked (ref test : OBMol) (minimize : Bool) (mp : Mapping) : ℝ × Bool :=
  let rc := refCoords ref mp
  let tc := testCoords test mp
  if minimize then
    (Real.sqrt (minimizedSSD (centerCoords rc) (centerCoords tc) / mp.length),
      (rc.length == 0) || (tc.length == 0))
  else
    (calc_rms rc tc mp.length, false)

/-- The state-passing form of the comparison: `MapGeneric` receives the test
molecule by pointer and the functor holds references to both molecules, so we
thread both molecules through the visitor state.  Every access the functor
performs on them (`GetAtom`, `GetVector`) is a read; centering and rotation
write only into the local arrays `refcoord` / `testcoord`, so the step
returns the molecules unchanged alongside the updated `bestRMSD`. -/
def functorStepFull (minimize : Bool) (st : OBMol × OBMol × WithTop ℝ) (m : Mapping) :
    (OBMol × OBMol × WithTop ℝ) × Bool :=
  let ref := st.1
  let test := st.2.1
  let refcoord := refCoords ref m
  let testcoord := testCoords test m
  let rmsd : ℝ :=
    if minimize then
      Real.sqrt (minimizedSSD (centerCoords refcoord) (centerCoords testcoord) / m.length)
    else
      calc_rms refcoord testcoord m.length
  ((ref, test, if (rmsd : WithTop ℝ) < st.2.2 then (rmsd : WithTop ℝ) else st.2.2), false)

/-- The entry point `Matcher::computeRMSD` in state-passing form: returns the two molecules
as the computation leaves them, together with the best RMSD. -/
def computeRMSDFull (ref test : OBMol) (minimize : Bool) : OBMol × OBMol × WithTop ℝ :=
  mapGeneric (functorStepFull minimize) (ref, test, ⊤) (allMappings ref test)

/-- The empty molecule graph. -/
def emptyMol : OBMol := ⟨[], [], false, false, false⟩

/-- A normalized molecule with a single carbon atom at the origin. -/
def molA : OBMol := ⟨[⟨6, (0, 0, 0), false, true⟩], [], true, true, true⟩

/-- A normalized two-carbon molecule: atoms at (0,0,0) and (1,0,0), bonded
(the reference of the specification's concrete scenario). -/
def molB : OBMol :=
  ⟨[⟨6, (0, 0, 0), false, true⟩, ⟨6, (1, 0, 0), false, true⟩],
    [⟨0, 1, 1, false, true⟩], true, true, true⟩

/-- The same two-carbon molecule translated by z = 1: atoms at (0,0,1) and
(1,0,1), bonded (the test of the specification's concrete scenario). -/
def molC : OBMol :=
  ⟨[⟨6, (0, 0, 1), false, true⟩, ⟨6, (1, 0, 1), false, true⟩],
    [⟨0, 1, 1, false, true⟩], true, true, true⟩

/-- An un-normalized molecule with a carbon, a hydrogen and a nitrogen, an
aromatic C-H bond and an aromatic order-2 C-N bond. -/
def molH : OBMol :=
  ⟨[⟨6, (0, 0, 0), true, false⟩, ⟨1, (1, 0, 0), false, false⟩, ⟨7, (0, 1, 0), true, false⟩],
    [⟨0, 1, 2, true, false⟩, ⟨0, 2, 2, true, false⟩], false, false, false⟩

/-! ### Basic lemmas about the candidate enumeration -/

theorem permsAux_length : ∀ (fuel : ℕ) (xs σ : List ℕ), σ ∈ permsAux fuel xs → σ.length = fuel := by
  intro fuel
  induction fuel with
  | zero =>
    intro xs σ h
    simp only [permsAux, List.mem_singleton] at h
    simp [h]
  | succ n ih =>
    intro xs σ h
    simp only [permsAux, List.mem_flatMap, List.mem_map] at h
    obtain ⟨j, _, σ', hσ', rfl⟩ := h
    simp [ih _ _ hσ']

theorem self_mem_permsAux : ∀ (fuel : ℕ) (xs : List ℕ), xs.length = fuel → xs ∈ permsAux fuel xs := by
  intro fuel
  induction fuel with
  | zero =>
    intro xs h
    rw [List.length_eq_zero] at h
    subst h
    simp [permsAux]
  | succ n ih =>
    intro xs h
    match xs with
    | [] => simp at h
    | a :: t =>
      simp only [permsAux, List.mem_flatMap]
      refine ⟨a, List.mem_cons_self _ _, ?_⟩
      rw [List.erase_cons_head]
      exact List.mem_map_of_mem _ (ih t (by simpa using h))

/-! ### The best-RMSD accumulator as a fold of `min` -/

theorem ite_lt_eq_min (r s : WithTop ℝ) : (if r < s then r else s) = min s r := by
  rcases lt_or_le r s with h | h
  · rw [if_pos h, min_eq_right h.le]
  · rw [if_neg (not_lt.mpr h), min_eq_left h]

theorem mapGeneric_functorStep (ref test : OBMol) (b : Bool) :
    ∀ (l : List Mapping) (s : WithTop ℝ),
      mapGeneric (functorStep ref test b) s l =
        l.foldl (fun s m => min s ((mapRMSD ref test b m : ℝ) : WithTop ℝ)) s := by
  intro l
  induction l with
  | nil => intro s; rfl
  | cons m rest ih =>
    intro s
    show mapGeneric _ (if _ < s then _ else s) rest = _
    rw [List.foldl_cons, ih, ite_lt_eq_min]

theorem foldlMin_le_init {α : Type} (f : α → ℝ) :
    ∀ (l : List α) (s : WithTop ℝ), l.foldl (fun s x => min s ((f x : ℝ) : WithTop ℝ)) s ≤ s := by
  intro l
  induction l with
  | nil => intro s; simp
  | cons a t ih => intro s; exact le_trans (ih _) (min_le_left _ _)

theorem foldlMin_le_of_mem {α : Type} (f : α → ℝ) :
    ∀ (l : List α) (s : WithTop ℝ) (m : α), m ∈ l →
      l.foldl (fun s x => min s ((f x : ℝ) : WithTop ℝ)) s ≤ ((f m : ℝ) : WithTop ℝ) := by
  intro l
  induction l with
  | nil => intro s m h; simp at h
  | cons a t ih =>
    intro s m h
    rcases List.mem_cons.mp h with h | h
    · subst h
      exact le_trans (foldlMin_le_init f t _) (min_le_right _ _)
    · exact ih _ m h

theorem foldlMin_cases {α : Type} (f : α → ℝ) :
    ∀ (l : List α) (s : WithTop ℝ),
      l.foldl (fun s x => min s ((f x : ℝ) : WithTop ℝ)) s = s ∨
        ∃ m ∈ l, l.foldl (fun s x => min s ((f x : ℝ) : WithTop ℝ)) s = ((f m : ℝ) : WithTop ℝ) := by
  intro l
  induction l with
  | nil => intro s; left; rfl
  | cons a t ih =>
    intro s
    rw [List.foldl_cons]
    rcases ih (min s ((f a : ℝ) : WithTop ℝ)) with h | ⟨m, hm, h⟩
    · rcases min_choice s ((f a : ℝ) : WithTop ℝ) with hc | hc
      · left; rw [h, hc]
      · right; exact ⟨a, List.mem_cons_self _ _, by rw [h, hc]⟩
    · right; exact ⟨m, List.mem_cons_of_mem _ hm, h⟩

theorem foldlMin_lb {α : Type} (f : α → ℝ) (c : WithTop ℝ) :
    ∀ (l : List α) (s : WithTop ℝ), (∀ m ∈ l, c ≤ ((f m : ℝ) : WithTop ℝ)) → c ≤ s →
      c ≤ l.foldl (fun s x => min s ((f x : ℝ) : WithTop ℝ)) s := by
  intro l
  induction l with
  | nil => intro s _ hs; exact hs
  | cons a t ih =>
    intro s hl hs
    exact ih _ (fun m hm => hl m (List.mem_cons_of_mem _ hm))
      (le_min hs (hl a (List.mem_cons_self _ _)))

theorem foldlMin_mono {α : Type} (f g : α → ℝ) :
    ∀ (l : List α) (s₁ s₂ : WithTop ℝ), (∀ m ∈ l, f m ≤ g m) → s₁ ≤ s₂ →
      l.foldl (fun s x => min s ((f x : ℝ) : WithTop ℝ)) s₁ ≤
        l.foldl (fun s x => min s ((g x : ℝ) : WithTop ℝ)) s₂ := by
  intro l
  induction l with
  | nil => intro s₁ s₂ _ hs; exact hs
  | cons a t ih =>
    intro s₁ s₂ hl hs
    refine ih _ _ (fun m hm => hl m (List.mem_cons_of_mem _ hm)) ?_
    exact min_le_min hs (WithTop.coe_le_coe.mpr (hl a (List.mem_cons_self _ _)))

/-! ### Basic lemmas about the evaluator -/

theorem ssd_nonneg : ∀ (a b : List Pt), 0 ≤ ssd a b := by
  intro a
  induction a with
  | nil => intro b; simp [ssd]
  | cons p a ih =>
    intro b
    cases b with
    | nil => simp [ssd]
    | cons q b =>
      have h := ih b
      have hn : 0 ≤ normSq (vsub p q) := by simp only [normSq]; positivity
      simp only [ssd, List.zipWith_cons_cons, List.sum_cons] at h ⊢
      linarith

theorem ssd_self : ∀ (l : List Pt), ssd l l = 0 := by
  intro l
  induction l with
  | nil => simp [ssd]
  | cons p t ih =>
    have hn : normSq (vsub p p) = 0 := by simp [normSq, vsub]
    simp only [ssd, List.zipWith_cons_cons, List.sum_cons] at ih ⊢
    rw [hn, ih, add_zero]

theorem Mat3.apply_id3 (p : Pt) : Mat3.apply Mat3.id3 p = p := by
  obtain ⟨x, y, z⟩ := p
  simp [Mat3.apply, Mat3.id3]

theorem Mat3.id3_proper : Mat3.IsProperRotation Mat3.id3 := by
  constructor
  · norm_num [Mat3.mul, Mat3.transpose, Mat3.id3, Mat3.mk.injEq]
  · norm_num [Mat3.det, Mat3.id3]

theorem rotate_coords_id3 (l : List Pt) : rotate_coords Mat3.id3 l = l := by
  unfold rotate_coords
  rw [show Mat3.apply Mat3.id3 = id from funext Mat3.apply_id3, List.map_id]

theorem minimizedSSD_le_ssd (rc tc : List Pt) : minimizedSSD rc tc ≤ ssd rc tc := by
  refine csInf_le ⟨0, ?_⟩ ?_
  · rintro x ⟨M, _, rfl⟩
    exact ssd_nonneg _ _
  · exact ⟨Mat3.id3, Mat3.id3_proper, by simp [rotate_coords_id3]⟩

theorem minimizedSSD_nonneg (rc tc : List Pt) : 0 ≤ minimizedSSD rc tc := by
  apply le_csInf
  · exact ⟨ssd rc tc, Mat3.id3, Mat3.id3_proper, by simp [rotate_coords_id3]⟩
  · rintro x ⟨M, _, rfl⟩
    exact ssd_nonneg _ _

theorem mapRMSD_nonneg (ref test : OBMol) (b : Bool) (m : Mapping) :
    0 ≤ mapRMSD ref test b m := by
  unfold mapRMSD calc_rms
  split <;> exact Real.sqrt_nonneg _

/-! ### Centroid subtraction can only decrease the sum of squared distances -/

theorem vsub_vsub_comm (p q c d : Pt) :
    vsub (vsub p c) (vsub q d) = vsub (vsub p q) (vsub c d) := by
  simp only [vsub, Prod.mk.injEq]
  refine ⟨by ring, by ring, by ring⟩

theorem sum_normSq_vsub (c : Pt) :
    ∀ (l : List Pt), (l.map (fun v => normSq (vsub v c))).sum =
      (l.map normSq).sum - 2 * dotp c (vsum l) + l.length * normSq c := by
  intro l
  induction l with
  | nil => simp [vsum, dotp, normSq]
  | cons v t ih =>
    simp only [List.map_cons, List.sum_cons, List.length_cons] at ih ⊢
    rw [ih]
    simp only [vsum, dotp, normSq, vsub, List.map_cons, List.sum_cons]
    push_cast
    ring

theorem vsum_zipWith_vsub : ∀ (a b : List Pt), a.length = b.length →
    vsum (List.zipWith vsub a b) = vsub (vsum a) (vsum b) := by
  intro a
  induction a with
  | nil =>
    intro b hb
    have : b = [] := List.length_eq_zero.mp (by simpa using hb.symm)
    subst this
    simp [vsum, vsub]
  | cons p a ih =>
    intro b hb
    cases b with
    | nil => simp at hb
    | cons q b =>
      have h := ih b (by simpa using hb)
      simp only [List.zipWith_cons_cons, vsum, vsub, List.map_cons, List.sum_cons,
        Prod.mk.injEq] at h ⊢
      obtain ⟨h1, h2, h3⟩ := h
      refine ⟨by rw [h1]; ring, by rw [h2]; ring, by rw [h3]; ring⟩

theorem ssd_eq_sum_normSq (a b : List Pt) :
    ssd a b = ((List.zipWith vsub a b).map normSq).sum := by
  unfold ssd
  rw [List.map_zipWith]

theorem ssd_center_le (a b : List Pt) (hlen : a.length = b.length) :
    ssd (centerCoords a) (centerCoords b) ≤ ssd a b := by
  rcases Nat.eq_zero_or_pos a.length with h0 | hpos
  · have ha : a = [] := List.length_eq_zero.mp h0
    have hb : b = [] := List.length_eq_zero.mp (hlen ▸ h0)
    subst ha; subst hb
    simp [centerCoords, ssd]
  · have hn : (0 : ℝ) < (a.length : ℝ) := by exact_mod_cast hpos
    set c : Pt := vsub (centroid a) (centroid b) with hc
    have step1 : List.zipWith vsub (centerCoords a) (centerCoords b) =
        (List.zipWith vsub a b).map (fun v => vsub v c) := by
      unfold centerCoords
      rw [List.zipWith_map]
      have : (fun p q => vsub (vsub p (centroid a)) (vsub q (centroid b))) =
          fun p q => vsub (vsub p q) c := by
        funext p q
        rw [hc, vsub_vsub_comm]
      rw [this]
      exact (List.map_zipWith (fun v => vsub v c) vsub a b).symm
    set d : List Pt := List.zipWith vsub a b with hd
    have hdlen : d.length = a.length := by
      rw [hd, List.length_zipWith, hlen, min_self]
    rw [ssd_eq_sum_normSq, ssd_eq_sum_normSq, step1, List.map_map]
    have expand := sum_normSq_vsub c d
    have : ((d.map (fun v => vsub v c)).map normSq).sum =
        (d.map (fun v => normSq (vsub v c))).sum := by
      rw [List.map_map]
      rfl
    rw [show (normSq ∘ fun v => vsub v c) = fun v => normSq (vsub v c) from rfl, expand, hdlen]
    -- it remains to see that the correction term is nonpositive
    have hS : vsum d = vsub (vsum a) (vsum b) := vsum_zipWith_vsub a b hlen
    have hcomp : c = ((vsum d).1 / a.length, (vsum d).2.1 / a.length,
        (vsum d).2.2 / a.length) := by
      rw [hc, hS]
      simp only [centroid, vsub, hlen]
      refine Prod.ext ?_ (Prod.ext ?_ ?_) <;> simp [div_sub_div_same, hlen]
    set s1 : ℝ := (vsum d).1
    set s2 : ℝ := (vsum d).2.1
    set s3 : ℝ := (vsum d).2.2
    have hdot : dotp c (vsum d) = (s1 ^ 2 + s2 ^ 2 + s3 ^ 2) / a.length := by
      rw [hcomp]
      simp only [dotp]
      field_simp
      ring
    have hnrm : normSq c = (s1 ^ 2 + s2 ^ 2 + s3 ^ 2) / (a.length : ℝ) ^ 2 := by
      rw [hcomp]
      simp only [normSq]
      field_simp
    rw [hdot, hnrm]
    have hq : 0 ≤ s1 ^ 2 + s2 ^ 2 + s3 ^ 2 := by positivity
    have key : (a.length : ℝ) * ((s1 ^ 2 + s2 ^ 2 + s3 ^ 2) / (a.length : ℝ) ^ 2) =
        (s1 ^ 2 + s2 ^ 2 + s3 ^ 2) / a.length := by
      field_simp
      ring
    rw [key]
    have : 0 ≤ (s1 ^ 2 + s2 ^ 2 + s3 ^ 2) / (a.length : ℝ) := by positivity
    linarith

theorem mapRMSD_true_eq (ref test : OBMol) (m : Mapping) :
    mapRMSD ref test true m = Real.sqrt
      (minimizedSSD (centerCoords (refCoords ref m)) (centerCoords (testCoords test m)) /
        m.length) := rfl

theorem mapRMSD_false_eq (ref test : OBMol) (m : Mapping) :
    mapRMSD ref test false m =
      Real.sqrt (ssd (refCoords ref m) (testCoords test m) / m.length) := rfl

theorem mapRMSD_min_le (ref test : OBMol) (m : Mapping) :
    mapRMSD ref test true m ≤ mapRMSD ref test false m := by
  rw [mapRMSD_true_eq, mapRMSD_false_eq]
  apply Real.sqrt_le_sqrt
  have hlen : (refCoords ref m).length = (testCoords test m).length := by
    simp [refCoords, testCoords]
  have h1 := minimizedSSD_le_ssd (centerCoords (refCoords ref m))
    (centerCoords (testCoords test m))
  have h2 := ssd_center_le (refCoords ref m) (testCoords test m) hlen
  exact div_le_div_of_nonneg_right (le_trans h1 h2) (Nat.cast_nonneg _)

/-! ### The claim theorems -/

/-- C1: for every reference and test molecule pair for which no
adjacency-preserving, element-compatible bijection exists (in particular
whenever the heavy-atom counts differ), the mapping visitor is never invoked
(the enumeration is empty, so `mapGeneric` returns its initial state) and
`computeRMSD` returns the sentinel `⊤` (positive infinity) the best-RMSD
accumulator was initialized to. -/
theorem obrms_C1 (ref test : OBMol) (b : Bool) :
    (ref.atoms.length ≠ test.atoms.length → allMappings ref test = []) ∧
      (allMappings ref test = [] → computeRMSD ref test b = ⊤) := by
  constructor
  · intro hne
    rw [List.eq_nil_iff_forall_not_mem]
    intro mp hmp
    unfold allMappings at hmp
    rw [List.mem_map] at hmp
    obtain ⟨σ, hσ, rfl⟩ := hmp
    rw [List.mem_filter] at hσ
    obtain ⟨hperm, hiso⟩ := hσ
    have hlen : σ.length = test.atoms.length := permsAux_length _ _ _ hperm
    unfold isIsomorphism at hiso
    simp only [Bool.and_eq_true, beq_iff_eq] at hiso
    exact hne (by rw [← hiso.1.1, hlen])
  · intro h
    unfold computeRMSD
    rw [h]
    rfl

/-- C1 witness: a one-atom reference against a two-atom test produces no
mapping and `computeRMSD` returns `⊤`. -/
theorem obrms_C1_witness :
    allMappings molA molB = [] ∧ computeRMSD molA molB false = ⊤ := by
  have h := obrms_C1 molA molB false
  have h1 := h.1 (by decide)
  exact ⟨h1, h.2 h1⟩

/-- C2: the visitor always returns `false` (never requests early
termination), and `computeRMSD` returns exactly the minimum over all
enumerated mappings of the per-mapping RMSD: it is a lower bound of the
per-mapping values, and it is either the untouched sentinel `⊤` or one of
those values. -/
theorem obrms_C2 (ref test : OBMol) (b : Bool) :
    (∀ (s : WithTop ℝ) (m : Mapping), (functorStep ref test b s m).2 = false) ∧
      (∀ m ∈ allMappings ref test,
        computeRMSD ref test b ≤ ((mapRMSD ref test b m : ℝ) : WithTop ℝ)) ∧
      (computeRMSD ref test b = ⊤ ∨
        ∃ m ∈ allMappings ref test,
          computeRMSD ref test b = ((mapRMSD ref test b m : ℝ) : WithTop ℝ)) := by
  refine ⟨fun s m => rfl, ?_, ?_⟩
  · intro m hm
    unfold computeRMSD
    rw [mapGeneric_functorStep]
    exact foldlMin_le_of_mem _ _ _ _ hm
  · unfold computeRMSD
    rw [mapGeneric_functorStep]
    exact foldlMin_cases _ _ _

/-- C2 witness: the single-carbon self-comparison has the identity mapping
among its enumerated mappings, and the result is bounded by its RMSD. -/
theorem obrms_C2_witness :
    computeRMSD molA molA false ≤ ((mapRMSD molA molA false [(0, 0)] : ℝ) : WithTop ℝ) :=
  (obrms_C2 molA molA false).2.1 [(0, 0)] (by decide)

/-- C5: for every reference/test pair, the result with `minimize = true` is
at most the result with `minimize = false`: for each fixed mapping, centroid
subtraction followed by the optimal proper rotation can only reduce or equal
the raw RMSD, and the same minimum-over-mappings fold is applied in both
modes. -/
theorem obrms_C5 (ref test : OBMol) :
    computeRMSD ref test true ≤ computeRMSD ref test false := by
  unfold computeRMSD
  rw [mapGeneric_functorStep, mapGeneric_functorStep]
  exact foldlMin_mono _ _ _ _ _ (fun m _ => mapRMSD_min_le ref test m) le_rfl

/-- C10: the best-RMSD accumulator is monotone non-increasing at every
visited mapping, and whenever at least one mapping (with at least one atom)
is visited, `computeRMSD` returns a finite, non-negative real value. -/
theorem obrms_C10 (ref test : OBMol) (b : Bool) :
    (∀ (s : WithTop ℝ) (m : Mapping), (functorStep ref test b s m).1 ≤ s) ∧
      ((∃ m ∈ allMappings ref test, 1 ≤ m.length) →
        ∃ x : ℝ, 0 ≤ x ∧ computeRMSD ref test b = ((x : ℝ) : WithTop ℝ)) := by
  constructor
  · intro s m
    show (if _ < s then _ else s) ≤ s
    rw [ite_lt_eq_min]
    exact min_le_left _ _
  · rintro ⟨m, hm, _⟩
    have hle : computeRMSD ref test b ≤ ((mapRMSD ref test b m : ℝ) : WithTop ℝ) := by
      unfold computeRMSD
      rw [mapGeneric_functorStep]
      exact foldlMin_le_of_mem _ _ _ _ hm
    have hnn : (((0 : ℝ)) : WithTop ℝ) ≤ computeRMSD ref test b := by
      unfold computeRMSD
      rw [mapGeneric_functorStep]
      exact foldlMin_lb _ _ _ _
        (fun m' _ => WithTop.coe_le_coe.mpr (mapRMSD_nonneg ref test b m')) le_top
    have hne : computeRMSD ref test b ≠ ⊤ := by
      intro hT
      rw [hT] at hle
      exact WithTop.coe_ne_top (top_le_iff.mp hle)
    obtain ⟨x, hx⟩ := WithTop.ne_top_iff_exists.mp hne
    refine ⟨x, ?_, hx.symm⟩
    rw [← hx] at hnn
    exact WithTop.coe_le_coe.mp hnn

/-- C10 witness: the single-carbon self-comparison visits the one-pair
identity mapping and yields a finite, non-negative value. -/
theorem obrms_C10_witness :
    ∃ x : ℝ, 0 ≤ x ∧ computeRMSD molA molA false = ((x : ℝ) : WithTop ℝ) :=
  (obrms_C10 molA molA false).2 ⟨[(0, 0)], by decide, by decide⟩

/-! ### The identity mapping of a self-comparison -/

theorem getD_range {n i : ℕ} (h : i < n) : (List.range n).getD i 0 = i := by
  rw [List.getD_eq_getElem?_getD, List.getElem?_range h]
  rfl

theorem isIsomorphism_self (G : OBMol) :
    isIsomorphism G G (List.range G.atoms.length) = true := by
  unfold isIsomorphism
  simp only [Bool.and_eq_true, beq_iff_eq]
  refine ⟨⟨List.length_range _, ?_⟩, ?_⟩
  · unfold elementsCompatible
    simp only [List.length_range]
    rw [List.all_eq_true]
    intro i hi
    rw [List.mem_range] at hi
    rw [getD_range hi]
    exact beq_self_eq_true _
  · unfold adjacencyPreserved
    simp only [List.length_range]
    rw [List.all_eq_true]
    intro i hi
    rw [List.mem_range] at hi
    rw [List.all_eq_true]
    intro j hj
    rw [List.mem_range] at hj
    rw [getD_range hi, getD_range hj]
    exact beq_self_eq_true _

theorem idMapping_mem (G : OBMol) :
    (List.range G.atoms.length).zip (List.range G.atoms.length) ∈ allMappings G G := by
  unfold allMappings
  apply List.mem_map_of_mem
  rw [List.mem_filter]
  exact ⟨self_mem_permsAux _ _ (List.length_range _), isIsomorphism_self G⟩

theorem zip_self_map_eq {α β : Type} (f : α → β) :
    ∀ (l : List α), ((l.zip l).map fun pr => f pr.1) = ((l.zip l).map fun pr => f pr.2) := by
  intro l
  induction l with
  | nil => rfl
  | cons a t ih => simpa [List.zip_cons_cons] using ih

theorem mapRMSD_self_id (G : OBMol) :
    mapRMSD G G false ((List.range G.atoms.length).zip (List.range G.atoms.length)) = 0 := by
  rw [mapRMSD_false_eq]
  have h : refCoords G ((List.range G.atoms.length).zip (List.range G.atoms.length)) =
      testCoords G ((List.range G.atoms.length).zip (List.range G.atoms.length)) := by
    unfold refCoords testCoords
    exact zip_self_map_eq (fun i => (G.atoms.getD i default).coord) _
  rw [h, ssd_self, zero_div, Real.sqrt_zero]

/-- C4: comparing a molecule graph with at least one heavy atom against
itself with the minimize flag false returns exactly 0: the identity mapping
is enumerated and gives exact coordinate agreement, and no per-mapping RMSD
is negative. -/
theorem obrms_C4 (G : OBMol) (hpos : 0 < G.atoms.length) :
    computeRMSD G G false = (((0 : ℝ)) : WithTop ℝ) := by
  have hone : 1 ≤ G.atoms.length := hpos
  have hub : computeRMSD G G false ≤ (((0 : ℝ)) : WithTop ℝ) := by
    unfold computeRMSD
    rw [mapGeneric_functorStep]
    have := foldlMin_le_of_mem (mapRMSD G G false) (allMappings G G) ⊤ _ (idMapping_mem G)
    rwa [mapRMSD_self_id] at this
  have hlb : (((0 : ℝ)) : WithTop ℝ) ≤ computeRMSD G G false := by
    unfold computeRMSD
    rw [mapGeneric_functorStep]
    exact foldlMin_lb _ _ _ _
      (fun m' _ => WithTop.coe_le_coe.mpr (mapRMSD_nonneg G G false m')) le_top
  exact le_antisymm hub hlb

/-- C4 witness: the single-carbon molecule compared against itself gives 0. -/
theorem obrms_C4_witness :
    0 < molA.atoms.length ∧ computeRMSD molA molA false = (((0 : ℝ)) : WithTop ℝ) :=
  ⟨by decide, obrms_C4 molA (by decide)⟩

/-! ### The empty-mapping evaluation -/

theorem mapRMSD_nil (ref test : OBMol) (b : Bool) : mapRMSD ref test b [] = 0 := by
  cases b
  · rw [mapRMSD_false_eq]
    simp [ssd, refCoords, testCoords]
  · rw [mapRMSD_true_eq]
    simp

/-- C3 counterexample: the claim asserts that the evaluator "does not divide
by zero — it guards N >= 1 before taking the mean".  Evaluated at the empty
mapping in minimize mode, the instrumented evaluator records that a division
with zero denominator was executed (the centering step of lines 131-135
divides by `N` unconditionally), refuting the guard assertion. -/
theorem obrms_C3_counterexample :
    (mapRMSDchecked emptyMol emptyMol true []).2 = true := rfl

/-- C3 (amended): the evaluator does not guard N >= 1; with an empty
per-mapping coordinate set (N = 0) the minimize branch performs its centroid
divisions with zero denominator (recorded by the instrumented evaluator),
but the quotient is discarded because there are no points to center, the
per-mapping RMSD of the empty set evaluates to 0 (the spec convention for
`calc_rms`), and `computeRMSD` of two empty molecules returns 0 without
crashing. -/
theorem obrms_C3 (ref test : OBMol) (b : Bool) :
    (mapRMSDchecked ref test b []).1 = 0 ∧
      (mapRMSDchecked ref test b []).2 = b ∧
      computeRMSD emptyMol emptyMol b = (((0 : ℝ)) : WithTop ℝ) := by
  refine ⟨?_, ?_, ?_⟩
  · have h : (mapRMSDchecked ref test b []).1 = mapRMSD ref test b [] := by
      cases b <;> rfl
    rw [h, mapRMSD_nil]
  · cases b <;> rfl
  · have hall : allMappings emptyMol emptyMol = [[]] := rfl
    unfold computeRMSD
    rw [mapGeneric_functorStep, hall, List.foldl_cons, List.foldl_nil, mapRMSD_nil]
    exact min_eq_right le_top

/-! ### The concrete translated two-atom scenario -/

/-- C8: when the minimize flag is false the per-mapping RMSD is `calc_rms`
of the raw coordinate arrays (no centroid subtraction, no rotation fit); and
for the two-atom bonded reference A(0,0,0)-B(1,0,0) against its copy
translated by z = 1 the non-minimized result is exactly 1. -/
theorem obrms_C8 :
    (∀ (ref test : OBMol) (m : Mapping),
      mapRMSD ref test false m = calc_rms (refCoords ref m) (testCoords test m) m.length) ∧
      computeRMSD molB molC false = (((1 : ℝ)) : WithTop ℝ) := by
  refine ⟨fun ref test m => rfl, ?_⟩
  have hall : allMappings molB molC = [[(0, 0), (1, 1)], [(0, 1), (1, 0)]] := rfl
  unfold computeRMSD
  rw [mapGeneric_functorStep, hall, List.foldl_cons, List.foldl_cons, List.foldl_nil]
  have h1 : mapRMSD molB molC false [(0, 0), (1, 1)] = 1 := by
    rw [mapRMSD_false_eq]
    have hrc : refCoords molB [(0, 0), (1, 1)] = [(0, 0, 0), (1, 0, 0)] := rfl
    have htc : testCoords molC [(0, 0), (1, 1)] = [(0, 0, 1), (1, 0, 1)] := rfl
    rw [hrc, htc]
    have hssd : ssd [((0 : ℝ), (0 : ℝ), (0 : ℝ)), (1, 0, 0)] [(0, 0, 1), (1, 0, 1)] = 2 := by
      norm_num [ssd, normSq, vsub]
    rw [hssd]
    norm_num [Real.sqrt_one]
  have h2 : mapRMSD molB molC false [(0, 1), (1, 0)] = Real.sqrt 2 := by
    rw [mapRMSD_false_eq]
    have hrc : refCoords molB [(0, 1), (1, 0)] = [(0, 0, 0), (1, 0, 0)] := rfl
    have htc : testCoords molC [(0, 1), (1, 0)] = [(1, 0, 1), (0, 0, 1)] := rfl
    rw [hrc, htc]
    have hssd : ssd [((0 : ℝ), (0 : ℝ), (0 : ℝ)), (1, 0, 0)] [(1, 0, 1), (0, 0, 1)] = 4 := by
      norm_num [ssd, normSq, vsub]
    rw [hssd]
    norm_num
  rw [h1, h2, min_eq_right le_top]
  have hs2 : (1 : ℝ) ≤ Real.sqrt 2 := by
    have := Real.sqrt_le_sqrt (by norm_num : (1 : ℝ) ≤ 2)
    rwa [Real.sqrt_one] at this
  exact min_eq_left (WithTop.coe_le_coe.mpr hs2)

/-! ### The comparison does not modify the molecules -/

theorem mapGeneric_full (ref test : OBMol) (b : Bool) :
    ∀ (l : List Mapping) (s : WithTop ℝ),
      mapGeneric (functorStepFull b) (ref, test, s) l =
        (ref, test, mapGeneric (functorStep ref test b) s l) := by
  intro l
  induction l with
  | nil => intro s; rfl
  | cons m rest ih =>
    intro s
    show mapGeneric (functorStepFull b) (ref, test, _) rest = _
    rw [ih]
    rfl

/-- C9: `computeRMSD` does not modify either molecule: in the state-passing
embedding the functor only reads the molecules (all writes target the local
coordinate copies), so after the call both graphs — atoms, bonds, flags and
coordinates — are the very molecules passed in, in both minimize modes, and
the accumulated value agrees with `computeRMSD`. -/
theorem obrms_C9 (ref test : OBMol) (b : Bool) :
    computeRMSDFull ref test b = (ref, test, computeRMSD ref test b) :=
  mapGeneric_full ref test b (allMappings ref test) ⊤

/-! ### Normalization -/

theorem deleteHydrogens_atoms (m : OBMol) :
    (deleteHydrogens m).atoms = m.atoms.filter isHeavy := rfl

theorem deleteHydrogens_bonds (m : OBMol) :
    (deleteHydrogens m).bonds = (m.bonds.filter (keepBond m)).map
      (fun b => { b with src := reindexAtom m b.src, dst := reindexAtom m b.dst }) := rfl

theorem keepBond_iff {m : OBMol} {b : Bond} : keepBond m b = true ↔
    b.src < m.atoms.length ∧ b.dst < m.atoms.length ∧
      isHeavy (m.atoms.getD b.src default) = true ∧
      isHeavy (m.atoms.getD b.dst default) = true := by
  simp [keepBond, Bool.and_eq_true, decide_eq_true_iff, and_assoc]

theorem length_filter_take_lt {l : List Atom} {i : ℕ} (h : i < l.length)
    (hp : isHeavy (l.getD i default) = true) :
    ((l.take i).filter isHeavy).length < (l.filter isHeavy).length := by
  conv_rhs => rw [← List.take_append_drop i l]
  rw [List.filter_append, List.length_append, List.drop_eq_getElem_cons h, List.filter_cons]
  rw [List.getD_eq_getElem l default h] at hp
  rw [if_pos hp]
  simp only [List.length_cons]
  omega

theorem getD_filter_heavy {l : List Atom} {i : ℕ} (h : i < (l.filter isHeavy).length) :
    isHeavy ((l.filter isHeavy).getD i default) = true := by
  rw [List.getD_eq_getElem _ default h]
  exact List.of_mem_filter (List.getElem_mem h)

theorem deleteHydrogens_heavy {m : OBMol} {a : Atom} (ha : a ∈ (deleteHydrogens m).atoms) :
    isHeavy a = true := by
  rw [deleteHydrogens_atoms] at ha
  exact List.of_mem_filter ha

theorem deleteHydrogens_bond_bounds {m : OBMol} {b : Bond}
    (hb : b ∈ (deleteHydrogens m).bonds) :
    b.src < (deleteHydrogens m).atoms.length ∧ b.dst < (deleteHydrogens m).atoms.length ∧
      isHeavy ((deleteHydrogens m).atoms.getD b.src default) = true ∧
      isHeavy ((deleteHydrogens m).atoms.getD b.dst default) = true := by
  rw [deleteHydrogens_bonds, List.mem_map] at hb
  obtain ⟨b₁, hb₁, rfl⟩ := hb
  rw [List.mem_filter] at hb₁
  obtain ⟨_, hkeep⟩ := hb₁
  rw [keepBond_iff] at hkeep
  obtain ⟨h1, h2, h3, h4⟩ := hkeep
  rw [deleteHydrogens_atoms]
  exact ⟨length_filter_take_lt h1 h3, length_filter_take_lt h2 h4,
    getD_filter_heavy (length_filter_take_lt h1 h3),
    getD_filter_heavy (length_filter_take_lt h2 h4)⟩

theorem processMol_atoms (m : OBMol) :
    (processMol m).atoms = (deleteHydrogens m).atoms.map normalizeAtom := rfl

theorem processMol_bonds (m : OBMol) :
    (processMol m).bonds = (deleteHydrogens m).bonds.map normalizeBond := rfl

theorem isHeavy_normalizeAtom (a : Atom) : isHeavy (normalizeAtom a) = isHeavy a := rfl

theorem getD_map_normalizeAtom {l : List Atom} {i : ℕ} (h : i < l.length) :
    (l.map normalizeAtom).getD i default = normalizeAtom (l.getD i default) := by
  rw [List.getD_eq_getElem _ default (by simpa using h : i < (l.map normalizeAtom).length),
    List.getD_eq_getElem l default h]
  simp

theorem processMol_all_heavy {m : OBMol} {a : Atom} (ha : a ∈ (processMol m).atoms) :
    isHeavy a = true := by
  rw [processMol_atoms, List.mem_map] at ha
  obtain ⟨a₀, ha₀, rfl⟩ := ha
  rw [isHeavy_normalizeAtom]
  exact deleteHydrogens_heavy ha₀

theorem processMol_bond_bounds {m : OBMol} {b : Bond} (hb : b ∈ (processMol m).bonds) :
    b.src < (processMol m).atoms.length ∧ b.dst < (processMol m).atoms.length ∧
      isHeavy ((processMol m).atoms.getD b.src default) = true ∧
      isHeavy ((processMol m).atoms.getD b.dst default) = true := by
  rw [processMol_bonds, List.mem_map] at hb
  obtain ⟨b₀, hb₀, rfl⟩ := hb
  obtain ⟨h1, h2, h3, h4⟩ := deleteHydrogens_bond_bounds hb₀
  have hlen : (processMol m).atoms.length = (deleteHydrogens m).atoms.length := by
    rw [processMol_atoms, List.length_map]
  have hsrc : (normalizeBond b₀).src = b₀.src := rfl
  have hdst : (normalizeBond b₀).dst = b₀.dst := rfl
  rw [hsrc, hdst, hlen]
  refine ⟨h1, h2, ?_, ?_⟩
  · rw [processMol_atoms, getD_map_normalizeAtom h1, isHeavy_normalizeAtom]
    exact h3
  · rw [processMol_atoms, getD_map_normalizeAtom h2, isHeavy_normalizeAtom]
    exact h4

/-- C6: after `processMol` every remaining atom is a heavy atom with its
aromatic flag cleared and its in-ring flag set; every remaining bond has its
aromatic flag cleared, its in-ring flag set, bond order 1, and both
endpoints referring to atoms of the normalized molecule (hydrogens' incident
bonds are gone); and normalization always succeeds, in particular on the
empty graph. -/
theorem obrms_C6 (m : OBMol) :
    ((processMol m).atoms.all fun a => (a.atomicNum != 1) && !a.aromatic && a.inRing) = true ∧
      ((processMol m).bonds.all fun b =>
        !b.aromatic && b.inRing && (b.order == 1) &&
          decide (b.src < (processMol m).atoms.length) &&
          decide (b.dst < (processMol m).atoms.length)) = true ∧
      processMol emptyMol = ⟨[], [], true, true, true⟩ := by
  refine ⟨?_, ?_, rfl⟩
  · rw [List.all_eq_true]
    intro a ha
    have hh := processMol_all_heavy ha
    rw [processMol_atoms, List.mem_map] at ha
    obtain ⟨a₀, _, rfl⟩ := ha
    simp only [Bool.and_eq_true]
    exact ⟨⟨hh, rfl⟩, rfl⟩
  · rw [List.all_eq_true]
    intro b hb
    obtain ⟨h1, h2, _, _⟩ := processMol_bond_bounds hb
    rw [processMol_bonds, List.mem_map] at hb
    obtain ⟨b₀, _, rfl⟩ := hb
    simp only [Bool.and_eq_true, decide_eq_true_iff]
    exact ⟨⟨⟨⟨rfl, rfl⟩, rfl⟩, h1⟩, h2⟩

theorem reindex_id_of_heavy {l : List Atom} (hall : ∀ a ∈ l, isHeavy a = true) {i : ℕ}
    (h : i ≤ l.length) : ((l.take i).filter isHeavy).length = i := by
  rw [List.filter_eq_self.mpr fun a ha => hall a (List.mem_of_mem_take ha), List.length_take]
  exact min_eq_left h

theorem deleteHydrogens_clean (m : OBMol)
    (hatoms : ∀ a ∈ m.atoms, isHeavy a = true)
    (hbonds : ∀ b ∈ m.bonds, b.src < m.atoms.length ∧ b.dst < m.atoms.length ∧
      isHeavy (m.atoms.getD b.src default) = true ∧
      isHeavy (m.atoms.getD b.dst default) = true) :
    deleteHydrogens m = m := by
  have hfa : m.atoms.filter isHeavy = m.atoms := List.filter_eq_self.mpr hatoms
  have hfb : m.bonds.filter (keepBond m) = m.bonds := by
    refine List.filter_eq_self.mpr fun b hb => ?_
    rw [keepBond_iff]
    exact hbonds b hb
  have hmap : ∀ b ∈ m.bonds,
      ({ b with src := reindexAtom m b.src, dst := reindexAtom m b.dst } : Bond) = b := by
    intro b hb
    obtain ⟨h1, h2, _, _⟩ := hbonds b hb
    have e1 : reindexAtom m b.src = b.src := reindex_id_of_heavy hatoms h1.le
    have e2 : reindexAtom m b.dst = b.dst := reindex_id_of_heavy hatoms h2.le
    rw [e1, e2]
  unfold deleteHydrogens
  rw [hfb, List.map_congr_left hmap, List.map_id', hfa]

/-- C7: normalization is idempotent: applying `processMol` twice leaves the
molecule graph — atoms, bonds, flags, bond orders and coordinates — exactly
as applying it once. -/
theorem obrms_C7 (m : OBMol) : processMol (processMol m) = processMol m := by
  have hdh : deleteHydrogens (processMol m) = processMol m :=
    deleteHydrogens_clean _ (fun a ha => processMol_all_heavy ha)
      (fun b hb => processMol_bond_bounds hb)
  show ({ atoms := (deleteHydrogens (processMol m)).atoms.map normalizeAtom,
          bonds := (deleteHydrogens (processMol m)).bonds.map normalizeBond,
          hybridizationPerceived := true, ringPerceived := true,
          aromaticPerceived := true } : OBMol) = processMol m
  rw [hdh, processMol_atoms, processMol_bonds, List.map_map, List.map_map,
    show normalizeAtom ∘ normalizeAtom = normalizeAtom from funext fun a => rfl,
    show normalizeBond ∘ normalizeBond = normalizeBond from funext fun b => rfl]
  rfl

end
